import Mathlib

/-!
Shallow embedding of `src/bmaptools/BmapCreator.py` (Python 2).

Modelling conventions:
* file bytes are `Nat`s; the image file content is a `List Nat`;
* the FIBMAP-based mapping oracle `_is_mapped` is abstracted as a pure
  function `m : Nat → Bool` (block index ↦ mapped?); its error behaviour is
  modelled separately for the constructor (`BmapCreator_init` below);
* SHA1 is collision-free for the purposes of the spec, so a digest is
  modelled as the exact sequence of bytes fed to the hash accumulator:
  two digests are equal iff the hashed byte streams are equal;
* Python 2 integer division (`/` on ints, as in `__init__`) is `Nat.div`;
  the float `bmap_mapped_percent` is modelled as a rational.
-/

namespace BmapCreatorModel

/-- `__init__`: `bmap_blocks_cnt = (image_size + block_size - 1) / block_size`
(Python 2 `/=` on ints is floor division). -/
def bmap_blocks_cnt (image_size block_size : Nat) : Nat :=
  (image_size + block_size - 1) / block_size

/-- State machine of `_get_ranges`: `itertools.groupby(xrange(n), self._is_mapped)`
groups consecutive block indices with equal `_is_mapped` value; for each
group with key `True` the code yields `(first, last)`, the first and last
elements of the group.  The scan is embedded with an explicit state: `none`
means "not inside a mapped run", `some (f, l)` means "inside a mapped run
that started at block `f`, whose last seen element is block `l`".
Arguments: current block index `i`, remaining block count, state. -/
def scanRanges (m : Nat → Bool) : Nat → Nat → Option (Nat × Nat) → List (Nat × Nat)
  | _, 0, none => []
  | _, 0, some fl => [fl]
  | i, k + 1, none =>
      if m i then scanRanges m (i + 1) k (some (i, i))
      else scanRanges m (i + 1) k none
  | i, k + 1, some fl =>
      if m i then scanRanges m (i + 1) k (some (fl.1, i))
      else fl :: scanRanges m (i + 1) k none

/-- `_get_ranges`: the list of `(first, last)` pairs yielded by the generator,
for oracle `m` over blocks `0 .. n-1`. -/
def get_ranges (m : Nat → Bool) (n : Nat) : List (Nat × Nat) :=
  scanRanges m 0 n none

/-- The block indices covered by one emitted range `(first, last)`:
`[first, first+1, ..., last]`. -/
def toBlocks (r : Nat × Nat) : List Nat :=
  List.range' r.1 (r.2 + 1 - r.1)

-- sanity checks of the embedding against hand-evaluated `groupby` runs
example : get_ranges (fun i => i == 0 || i == 1 || i == 3) 4 = [(0, 1), (3, 3)] := by decide
example : get_ranges (fun _ => false) 5 = [] := by decide
example : get_ranges (fun _ => true) 5 = [(0, 4)] := by decide
example : get_ranges (fun i => i % 2 == 1) 5 = [(1, 1), (3, 3)] := by decide

/-- Scan-state well-formedness: inside a run `some (f, l)` the last seen
element is the previous block (`l + 1 = i`) and the run is non-empty. -/
def stOk (i : Nat) : Option (Nat × Nat) → Prop
  | none => True
  | some fl => fl.2 + 1 = i ∧ fl.1 ≤ fl.2

/-- Blocks already committed to the current scan state. -/
def stBlocks : Option (Nat × Nat) → List Nat
  | none => []
  | some fl => List.range' fl.1 (fl.2 + 1 - fl.1)

theorem scanRanges_flatten (m : Nat → Bool) :
    ∀ (k i : Nat) (s : Option (Nat × Nat)), stOk i s →
      (scanRanges m i k s).flatMap toBlocks =
        stBlocks s ++ (List.range' i k).filter m := by
  intro k
  induction k with
  | zero =>
    intro i s hs
    match s with
    | none => simp [scanRanges, stBlocks]
    | some fl => simp [scanRanges, stBlocks, toBlocks]
  | succ k ih =>
    intro i s hs
    match s with
    | none =>
      by_cases hm : m i
      · have h1 := ih (i + 1) (some (i, i)) (by constructor <;> omega)
        simp only [scanRanges, hm, if_true, h1, stBlocks, stOk]
        rw [List.range'_succ, List.filter_cons]
        simp [hm, toBlocks]
      · have h1 := ih (i + 1) none trivial
        simp only [stBlocks, List.nil_append] at h1
        simp only [scanRanges, hm, if_false, h1]
        rw [List.range'_succ, List.filter_cons]
        simp [hm, stBlocks, h1]
    | some fl =>
      obtain ⟨hl, hfl⟩ := hs
      by_cases hm : m i
      · have h1 := ih (i + 1) (some (fl.1, i)) (by constructor <;> omega)
        simp only [scanRanges, hm, if_true, h1, stBlocks]
        rw [List.range'_succ, List.filter_cons]
        simp only [hm, if_true]
        have h2 : i + 1 - fl.1 = (fl.2 + 1 - fl.1) + 1 := by omega
        rw [h2, List.range'_concat]
        have h3 : fl.1 + 1 * (fl.2 + 1 - fl.1) = i := by omega
        rw [h3, List.append_assoc]
        simp
      · have h1 := ih (i + 1) none trivial
        simp only [stBlocks, List.nil_append] at h1
        simp only [scanRanges, hm, if_false, List.flatMap_cons, h1, stBlocks]
        rw [List.range'_succ, List.filter_cons]
        simp [hm, toBlocks, h1]

theorem get_ranges_flatten (m : Nat → Bool) (n : Nat) :
    (get_ranges m n).flatMap toBlocks = (List.range n).filter m := by
  have h := scanRanges_flatten m n 0 none trivial
  rw [get_ranges, h, stBlocks, List.range_eq_range']
  simp

/-- Well-formedness of an emitted range list: consecutive ranges are
non-adjacent and strictly increasing (`a.2 + 2 ≤ b.1`), and every range
`r` satisfies `lb ≤ r.1 ≤ r.2 < hi`. -/
def rangesOk (lb hi : Nat) (rs : List (Nat × Nat)) : Prop :=
  List.Chain' (fun a b => a.2 + 2 ≤ b.1) rs ∧
    ∀ r ∈ rs, lb ≤ r.1 ∧ r.1 ≤ r.2 ∧ r.2 < hi

theorem rangesOk_mono (lb lb' hi : Nat) (rs : List (Nat × Nat))
    (h : rangesOk lb hi rs) (hle : lb' ≤ lb) : rangesOk lb' hi rs := by
  obtain ⟨hc, hb⟩ := h
  exact ⟨hc, fun r hr => ⟨le_trans hle (hb r hr).1, (hb r hr).2⟩⟩

theorem scanRanges_ok (m : Nat → Bool) :
    ∀ (k i : Nat),
      rangesOk i (i + k) (scanRanges m i k none) ∧
      (∀ f l, l + 1 = i → f ≤ l →
        rangesOk f (i + k) (scanRanges m i k (some (f, l)))) := by
  intro k
  induction k with
  | zero =>
    intro i
    constructor
    · exact ⟨List.chain'_nil, by simp [scanRanges]⟩
    · intro f l hl hfl
      refine ⟨by simp [scanRanges], ?_⟩
      intro r hr
      simp only [scanRanges, List.mem_singleton] at hr
      subst hr
      exact ⟨le_refl _, hfl, by omega⟩
  | succ k ih =>
    intro i
    constructor
    · by_cases hm : m i
      · have h1 := (ih (i + 1)).2 i i rfl (le_refl i)
        simp only [scanRanges, hm, if_true]
        have : i + 1 + k = i + (k + 1) := by omega
        rwa [this] at h1
      · have h1 := (ih (i + 1)).1
        simp only [scanRanges, hm, if_false]
        have : i + 1 + k = i + (k + 1) := by omega
        rw [this] at h1
        exact rangesOk_mono (i + 1) i _ _ h1 (by omega)
    · intro f l hl hfl
      by_cases hm : m i
      · have h1 := (ih (i + 1)).2 f i rfl (by omega)
        simp only [scanRanges, hm, if_true]
        have : i + 1 + k = i + (k + 1) := by omega
        rwa [this] at h1
      · have h1 := (ih (i + 1)).1
        simp only [scanRanges, hm, Bool.false_eq_true, if_false]
        obtain ⟨hc1, hb1⟩ := h1
        constructor
        · rw [List.chain'_cons']
          refine ⟨?_, hc1⟩
          intro h hh
          have hmem : h ∈ scanRanges m (i + 1) k none := List.mem_of_mem_head? hh
          have := (hb1 h hmem).1
          omega
        · intro r hr
          rcases List.mem_cons.mp hr with h | h
          · subst h
            exact ⟨le_refl _, hfl, by omega⟩
          · have := hb1 r h
            exact ⟨by omega, this.2.1, by omega⟩

theorem get_ranges_ok (m : Nat → Bool) (n : Nat) :
    rangesOk 0 n (get_ranges m n) := by
  have h := (scanRanges_ok m n 0).1
  rwa [Nat.zero_add] at h

/-- From the chain of non-adjacency plus per-range well-formedness, every
pair of ranges (not only consecutive ones) is strictly separated. -/
theorem chain_sep_pairwise :
    ∀ (rs : List (Nat × Nat)),
      List.Chain' (fun a b => a.2 + 2 ≤ b.1) rs →
      (∀ r ∈ rs, r.1 ≤ r.2) →
      List.Pairwise (fun a b => a.2 + 2 ≤ b.1) rs := by
  intro rs
  induction rs with
  | nil => intro _ _; exact List.Pairwise.nil
  | cons a t ih =>
    intro hc hwf
    rw [List.chain'_cons'] at hc
    obtain ⟨hhd, hct⟩ := hc
    have hpt : List.Pairwise (fun a b => a.2 + 2 ≤ b.1) t :=
      ih hct (fun r hr => hwf r (List.mem_cons_of_mem _ hr))
    refine List.Pairwise.cons ?_ hpt
    intro b hb
    cases t with
    | nil => cases hb
    | cons h t2 =>
      have hah : a.2 + 2 ≤ h.1 := hhd h (by simp)
      rcases List.mem_cons.mp hb with hbh | hbt
      · subst hbh; exact hah
      · rw [List.pairwise_cons] at hpt
        have hh2 : h.2 + 2 ≤ b.1 := hpt.1 b hbt
        have hhwf : h.1 ≤ h.2 := hwf h (by simp)
        omega

theorem scanRanges_all_false (m : Nat → Bool) :
    ∀ (k i : Nat), (∀ j, i ≤ j → j < i + k → m j = false) →
      scanRanges m i k none = [] := by
  intro k
  induction k with
  | zero => intro i _; rfl
  | succ k ih =>
    intro i h
    have hmi : m i = false := h i (le_refl i) (by omega)
    simp only [scanRanges, hmi, Bool.false_eq_true, if_false]
    exact ih (i + 1) (fun j h1 h2 => h j (by omega) (by omega))

theorem scanRanges_all_true_some (m : Nat → Bool) :
    ∀ (k i f l : Nat), l + 1 = i →
      (∀ j, i ≤ j → j < i + k → m j = true) →
      scanRanges m i k (some (f, l)) = [(f, l + k)] := by
  intro k
  induction k with
  | zero => intro i f l hl _; simp [scanRanges]
  | succ k ih =>
    intro i f l hl h
    have hmi : m i = true := h i (le_refl i) (by omega)
    simp only [scanRanges, hmi, if_true]
    have h1 := ih (i + 1) f i rfl (fun j h1 h2 => h j (by omega) (by omega))
    rw [h1]
    have : i + k = l + (k + 1) := by omega
    rw [this]

theorem get_ranges_all_true (m : Nat → Bool) (n : Nat) (hn : 1 ≤ n)
    (h : ∀ j, j < n → m j = true) : get_ranges m n = [(0, n - 1)] := by
  rw [get_ranges]
  match n, hn with
  | Nat.succ k, _ =>
    have hm0 : m 0 = true := h 0 (by omega)
    simp only [scanRanges, hm0, if_true]
    have h1 := scanRanges_all_true_some m k 1 0 0 rfl
      (fun j h1 h2 => h j (by omega))
    rw [h1]
    simp

theorem get_ranges_all_false (m : Nat → Bool) (n : Nat)
    (h : ∀ j, j < n → m j = false) : get_ranges m n = [] := by
  rw [get_ranges]
  exact scanRanges_all_false m n 0 (fun j _ h2 => h j (by omega))

/-! ### Checksum engine (`_calculate_sha1`) -/

/-- One sequential `self._f_image.read(k)` on the modelled image: returns
the next `k` bytes starting at stream position `pos`, or fewer if the file
ends before that. -/
def fileRead (image : List Nat) (pos k : Nat) : List Nat :=
  (image.drop pos).take k

/-- The chunk size used by one iteration of the `_calculate_sha1` loop:
`if read + chunk_size > to_read: chunk_size = to_read - read`. -/
def nextChunk (to_read read chunk_size : Nat) : Nat :=
  if to_read < read + chunk_size then to_read - read else chunk_size

def sha1_loop (image : List Nat) (pos to_read read chunk_size : Nat)
    (hcs : 0 < chunk_size) : List Nat × Nat × List Nat :=
  if h : read < to_read then
    have hcs2 : 0 < nextChunk to_read read chunk_size := by
      unfold nextChunk; split <;> omega
    let cs := nextChunk to_read read chunk_size
    let chunk := fileRead image pos cs
    let r := sha1_loop image (pos + chunk.length) to_read (read + cs) cs hcs2
    (chunk ++ r.1, r.2.1, cs :: r.2.2)
  else ([], pos, [])
termination_by to_read - read
decreasing_by
  simp only [nextChunk]
  split <;> omega

/-- `_calculate_sha1(first, last)`: computes `start = first * block_size`
and `end = (last + 1) * block_size`, then hashes `end - start` bytes read
sequentially.  NOTE (faithful to the source): `start` is never used to
seek — reading begins at whatever the current stream position is. -/
def calculate_sha1 (image : List Nat) (block_size first last pos : Nat) :
    List Nat × Nat × List Nat :=
  let start := first * block_size
  let finish := (last + 1) * block_size
  sha1_loop image pos (finish - start) 0 (1024 * 1024) (by decide)

theorem nextChunk_pos (to_read read chunk_size : Nat) (hcs : 0 < chunk_size)
    (h : read < to_read) : 0 < nextChunk to_read read chunk_size := by
  unfold nextChunk; split <;> omega

theorem sha1_loop_step (image : List Nat)
    (pos to_read read chunk_size : Nat) (hcs : 0 < chunk_size)
    (h : read < to_read) (hcs2 : 0 < nextChunk to_read read chunk_size) :
    sha1_loop image pos to_read read chunk_size hcs =
      (fileRead image pos (nextChunk to_read read chunk_size) ++
        (sha1_loop image
          (pos + (fileRead image pos (nextChunk to_read read chunk_size)).length)
          to_read (read + nextChunk to_read read chunk_size)
          (nextChunk to_read read chunk_size) hcs2).1,
       (sha1_loop image
          (pos + (fileRead image pos (nextChunk to_read read chunk_size)).length)
          to_read (read + nextChunk to_read read chunk_size)
          (nextChunk to_read read chunk_size) hcs2).2.1,
       nextChunk to_read read chunk_size ::
        (sha1_loop image
          (pos + (fileRead image pos (nextChunk to_read read chunk_size)).length)
          to_read (read + nextChunk to_read read chunk_size)
          (nextChunk to_read read chunk_size) hcs2).2.2) := by
  rw [sha1_loop]
  simp [h]

theorem sha1_loop_base (image : List Nat)
    (pos to_read read chunk_size : Nat) (hcs : 0 < chunk_size)
    (h : ¬ read < to_read) :
    sha1_loop image pos to_read read chunk_size hcs = ([], pos, []) := by
  rw [sha1_loop]
  simp [h]

theorem sha1_loop_spec (image : List Nat) :
    ∀ (d pos to_read read chunk_size : Nat) (hcs : 0 < chunk_size),
      to_read - read = d → chunk_size ≤ 1024 * 1024 →
      (sha1_loop image pos to_read read chunk_size hcs).1 =
          (image.drop pos).take (to_read - read) ∧
      (sha1_loop image pos to_read read chunk_size hcs).2.1 =
          pos + min (to_read - read) (image.length - pos) ∧
      (sha1_loop image pos to_read read chunk_size hcs).2.2.sum =
          to_read - read ∧
      (∀ c ∈ (sha1_loop image pos to_read read chunk_size hcs).2.2,
        0 < c ∧ c ≤ 1024 * 1024) := by
  intro d
  induction d using Nat.strong_induction_on with
  | _ d ih =>
    intro pos to_read read chunk_size hcs hd hub
    by_cases h : read < to_read
    · have hcs2 : 0 < nextChunk to_read read chunk_size :=
        nextChunk_pos to_read read chunk_size hcs h
      rw [sha1_loop_step image pos to_read read chunk_size hcs h hcs2]
      set cs := nextChunk to_read read chunk_size with hcsdef
      have hcsle : cs ≤ to_read - read := by
        rw [hcsdef]; unfold nextChunk; split <;> omega
      have hcsub : cs ≤ 1024 * 1024 := by
        rw [hcsdef]; unfold nextChunk; split <;> omega
      have hdlt : to_read - (read + cs) < d := by omega
      obtain ⟨h1, h2, h3, h4⟩ := ih (to_read - (read + cs)) hdlt
        (pos + (fileRead image pos cs).length) to_read (read + cs) cs hcs2
        rfl hcsub
      have hlen : (fileRead image pos cs).length =
          min cs (image.length - pos) := by
        simp [fileRead]
      refine ⟨?_, ?_, ?_, ?_⟩
      · rw [h1, hlen]
        rcases Nat.le_total cs (image.length - pos) with hle | hle
        · have hmin : min cs (image.length - pos) = cs := by omega
          rw [hmin]
          have htk : to_read - read = cs + (to_read - (read + cs)) := by omega
          rw [htk, List.take_add]
          have hdd : (image.drop pos).drop cs = image.drop (pos + cs) := by
            rw [List.drop_drop]
          rw [hdd, fileRead]
        · have hmin : min cs (image.length - pos) = image.length - pos := by
            omega
          rw [hmin]
          have hdln : (image.drop pos).length = image.length - pos :=
            List.length_drop pos image
          have htk1 : (image.drop pos).take cs = image.drop pos :=
            List.take_of_length_le (by omega)
          have hdregion : image.drop (pos + (image.length - pos)) = [] :=
            List.drop_eq_nil_of_le (by omega)
          have htk2 : (image.drop pos).take (to_read - read) =
              image.drop pos :=
            List.take_of_length_le (by omega)
          rw [fileRead, htk1, hdregion, htk2]
          simp
      · rw [h2, hlen]
        omega
      · simp only [List.sum_cons, h3]
        omega
      · intro c hc
        rcases List.mem_cons.mp hc with hc1 | hc2
        · subst hc1; exact ⟨hcs2, hcsub⟩
        · exact h4 c hc2
    · rw [sha1_loop_base image pos to_read read chunk_size hcs h]
      have h0 : to_read - read = 0 := by omega
      simp [h0]

/-! ### Document assembler (`generate`, `_bmap_file_start`, `_bmap_file_end`) -/

/-- One line/fragment handed to the output sink (`self._output.info(...)`),
with the formatting stripped down to the semantically relevant payload:
* `header`: the whole `_bmap_file_start` fragment — version, `ImageSize`,
  `BlockSize`, `BlocksCount`, and the opening `BlockMap` tag;
* `rangeLine`: one `<Range sha1="...."> first-last </Range>` element, the
  digest present iff checksums were requested;
* `footer`: the whole `_bmap_file_end` fragment — closing `BlockMap` tag,
  `MappedBlocksCount`, the mapped-percent commentary and closing tag. -/
inductive BmapLine where
  | header (image_size block_size blocks_cnt : Nat)
  | rangeLine (sha1 : Option (List Nat)) (first last : Nat)
  | footer (mapped_cnt mapped_size : Nat) (mapped_percent : Rat)
  deriving DecidableEq

def BmapLine.isRange : BmapLine → Bool
  | rangeLine _ _ _ => true
  | _ => false

/-- The `(first, last)` payload of a range line (junk on other lines). -/
def BmapLine.blockSpan : BmapLine → Nat × Nat
  | rangeLine _ first last => (first, last)
  | _ => (0, 0)

/-- The `for first, last in self._get_ranges()` loop body of `generate`:
accumulates `bmap_mapped_cnt += last - first + 1`, optionally computes the
SHA1 of the range (reading from the current stream position `pos`, which the
checksum engine then advances), and emits one range line per range, in
discovery order.  Returns the emitted lines and the final mapped count. -/
def rangeLoop (image : List Nat) (block_size : Nat) (include_checksums : Bool) :
    List (Nat × Nat) → Nat → Nat → List BmapLine × Nat
  | [], _pos, cnt => ([], cnt)
  | (first, last) :: rest, pos, cnt =>
      let cnt2 := cnt + (last - first + 1)
      if include_checksums then
        let r := calculate_sha1 image block_size first last pos
        let rec2 := rangeLoop image block_size include_checksums rest r.2.1 cnt2
        (BmapLine.rangeLine (some r.1) first last :: rec2.1, rec2.2)
      else
        let rec2 := rangeLoop image block_size include_checksums rest pos cnt2
        (BmapLine.rangeLine none first last :: rec2.1, rec2.2)

/-- Result of a `generate()` run: the ordered lines handed to the sink and
the summary fields stored on the instance (`bmap_mapped_cnt`,
`bmap_mapped_size`, `bmap_mapped_percent`). -/
structure GenResult where
  lines : List BmapLine
  mapped_cnt : Nat
  mapped_size : Nat
  mapped_percent : Rat
  deriving DecidableEq

/-- `generate(include_checksums)`: emits the header (`_bmap_file_start`),
seeks the image stream to offset 0, flushes/fsyncs (no observable effect in
the model), runs the range loop emitting range lines as ranges are
discovered, computes the summary fields and emits the footer
(`_bmap_file_end`).  `m` is the `_is_mapped` oracle; `image_size` and
`block_size` are the values captured by `__init__`. -/
def generate (m : Nat → Bool) (image : List Nat)
    (image_size block_size : Nat) (include_checksums : Bool) : GenResult :=
  let blocks_cnt := bmap_blocks_cnt image_size block_size
  let r := rangeLoop image block_size include_checksums
    (get_ranges m blocks_cnt) 0 0
  let mapped_cnt := r.2
  let mapped_size := mapped_cnt * block_size
  let mapped_percent : Rat := (mapped_cnt * 100 : Rat) / (blocks_cnt : Rat)
  { lines := BmapLine.header image_size block_size blocks_cnt ::
      (r.1 ++ [BmapLine.footer mapped_cnt mapped_size mapped_percent]),
    mapped_cnt := mapped_cnt,
    mapped_size := mapped_size,
    mapped_percent := mapped_percent }

theorem rangeLoop_lines_ranges (image : List Nat) (block_size : Nat)
    (inc : Bool) :
    ∀ (rs : List (Nat × Nat)) (pos cnt : Nat),
      ((rangeLoop image block_size inc rs pos cnt).1.map
        BmapLine.blockSpan) = rs ∧
      (∀ ln ∈ (rangeLoop image block_size inc rs pos cnt).1,
        ln.isRange = true) ∧
      (rangeLoop image block_size inc rs pos cnt).2 =
        cnt + (rs.map (fun r => r.2 - r.1 + 1)).sum := by
  intro rs
  induction rs with
  | nil => intro pos cnt; simp [rangeLoop]
  | cons r rest ih =>
    intro pos cnt
    obtain ⟨first, last⟩ := r
    cases inc with
    | true =>
      obtain ⟨ih1, ih2, ih3⟩ := ih
        (calculate_sha1 image block_size first last pos).2.1
        (cnt + (last - first + 1))
      refine ⟨?_, ?_, ?_⟩
      · simp only [rangeLoop, if_true, List.map_cons, BmapLine.blockSpan, ih1]
      · intro ln hln
        simp only [rangeLoop, if_true, List.mem_cons] at hln
        rcases hln with h1 | h2
        · subst h1; rfl
        · exact ih2 ln h2
      · simp only [rangeLoop, if_true, List.map_cons, List.sum_cons, ih3]
        omega
    | false =>
      obtain ⟨ih1, ih2, ih3⟩ := ih pos (cnt + (last - first + 1))
      refine ⟨?_, ?_, ?_⟩
      · simp only [rangeLoop, Bool.false_eq_true, if_false, List.map_cons,
          BmapLine.blockSpan, ih1]
      · intro ln hln
        simp only [rangeLoop, Bool.false_eq_true, if_false,
          List.mem_cons] at hln
        rcases hln with h1 | h2
        · subst h1; rfl
        · exact ih2 ln h2
      · simp only [rangeLoop, Bool.false_eq_true, if_false, List.map_cons,
          List.sum_cons, ih3]
        omega

theorem generate_lines_shape (m : Nat → Bool) (image : List Nat)
    (image_size block_size : Nat) (inc : Bool) :
    (generate m image image_size block_size inc).lines =
      BmapLine.header image_size block_size
          (bmap_blocks_cnt image_size block_size) ::
        ((generate m image image_size block_size inc).lines.filter
            (fun ln => ln.isRange) ++
          [BmapLine.footer
            (generate m image image_size block_size inc).mapped_cnt
            (generate m image image_size block_size inc).mapped_size
            (generate m image image_size block_size inc).mapped_percent]) ∧
    ((generate m image image_size block_size inc).lines.filter
        (fun ln => ln.isRange)).map BmapLine.blockSpan =
      get_ranges m (bmap_blocks_cnt image_size block_size) := by
  obtain ⟨h1, h2, _⟩ := rangeLoop_lines_ranges image block_size inc
    (get_ranges m (bmap_blocks_cnt image_size block_size)) 0 0
  have hfil : (generate m image image_size block_size inc).lines.filter
      (fun ln => ln.isRange) =
      (rangeLoop image block_size inc
        (get_ranges m (bmap_blocks_cnt image_size block_size)) 0 0).1 := by
    simp only [generate, List.filter_cons, List.filter_append]
    rw [List.filter_eq_self.mpr h2]
    simp [BmapLine.isRange]
  constructor
  · rw [hfil]
    simp [generate]
  · rw [hfil, h1]

theorem generate_mapped_cnt (m : Nat → Bool) (image : List Nat)
    (image_size block_size : Nat) (inc : Bool) :
    (generate m image image_size block_size inc).mapped_cnt =
      ((get_ranges m (bmap_blocks_cnt image_size block_size)).map
        (fun r => r.2 - r.1 + 1)).sum := by
  obtain ⟨_, _, h3⟩ := rangeLoop_lines_ranges image block_size inc
    (get_ranges m (bmap_blocks_cnt image_size block_size)) 0 0
  simp only [generate]
  rw [h3]
  omega

/-! ### Constructor (`BmapCreator.__init__`) -/

/-- Errno constants used by `__init__` (`os.errno.EPERM`, `os.errno.EACCES`
on Linux). -/
def EPERM : Int := 1

def EACCES : Int := 13

/-- A raised Python exception, as observable by the caller of `__init__`:
either the module's own `Error` class, carrying `strerror` and `errno`, or
the `UnboundLocalError` raised when a local variable is referenced before
assignment. -/
inductive PyExc where
  | err (strerror : String) (errno : Option Int)
  | unboundLocal (name : String)
  deriving DecidableEq

/-- The OS-level environment `__init__` interacts with.  `open_result`
models `open(image_path, "rb")` (`some (msg, errno)` when it raises
`IOError`); `st_size` is `os.fstat(...).st_size`; `figetbsz` is the
`FIGETBSZ` ioctl (number 2); `fibmap` is the `FIBMAP` ioctl (number 1),
which returns the disk block number word, `0` meaning unmapped. -/
structure InitEnv where
  image_path : String
  open_result : Option (String × Int)
  st_size : Nat
  figetbsz : Except (String × Int) Nat
  fibmap : Nat → Except (String × Int) Nat

/-- `_is_mapped(block)`: wraps a failing `FIBMAP` ioctl in `Error` with the
generic message, otherwise returns `result != 0`. -/
def is_mapped (env : InitEnv) (block : Nat) : Except PyExc Bool :=
  match env.fibmap block with
  | .error (msg, errno) =>
      .error (.err ("the FIBMAP ioctl failed for " ++ env.image_path ++
        ": " ++ msg) (some errno))
  | .ok result => .ok (result != 0)

/-- The guidance message of the permission branch of `__init__` (the
textual content of the source string, quoting characters elided). -/
def permGuidanceMsg : String :=
  "you do not have permissions to use the FIBMAP ioctl which requires " ++
    "a CAP_SYS_RAWIO capability, try to become root"

/-- The fields `__init__` stores on success. -/
structure InitState where
  bmap_image_size : Nat
  bmap_block_size : Nat
  bmap_blocks_cnt : Nat
  deriving DecidableEq

/-- `BmapCreator.__init__`, step by step, together with the list of blocks
probed through the `FIBMAP` ioctl during construction (the probe trace).

Faithful detail for the zero-size branch: the source raises
`Error("cannot generate bmap for zero-sized image file ...", err.errno)`,
but when `open` succeeded the local `err` was never bound (it is only bound
by the two `except ... as err` clauses), so evaluating the argument
`err.errno` raises `UnboundLocalError` before the `Error` is constructed. -/
def BmapCreator_init (env : InitEnv) : Except PyExc InitState × List Nat :=
  match env.open_result with
  | some (msg, errno) =>
      (.error (.err ("cannot open image file " ++ env.image_path ++ ": " ++
        msg) (some errno)), [])
  | none =>
      let image_size := env.st_size
      if image_size == 0 then
        (.error (.unboundLocal "err"), [])
      else
        match env.figetbsz with
        | .error (msg, errno) =>
            (.error (.err ("cannot get block size for " ++ env.image_path ++
              ": " ++ msg) (some errno)), [])
        | .ok block_size =>
            let blocks_cnt := bmap_blocks_cnt image_size block_size
            match is_mapped env 0 with
            | .error e =>
                match e with
                | .err _ errno =>
                    if errno == some EPERM || errno == some EACCES then
                      (.error (.err permGuidanceMsg errno), [0])
                    else
                      (.error e, [0])
                | _ => (.error e, [0])
            | .ok _ =>
                (.ok { bmap_image_size := image_size,
                       bmap_block_size := block_size,
                       bmap_blocks_cnt := blocks_cnt }, [0])

theorem calculate_sha1_spec (image : List Nat) (bs f l pos : Nat) :
    (calculate_sha1 image bs f l pos).1 =
        (image.drop pos).take ((l + 1) * bs - f * bs) ∧
    (calculate_sha1 image bs f l pos).2.1 =
        pos + min ((l + 1) * bs - f * bs) (image.length - pos) ∧
    (calculate_sha1 image bs f l pos).2.2.sum = (l + 1) * bs - f * bs ∧
    (∀ c ∈ (calculate_sha1 image bs f l pos).2.2,
      0 < c ∧ c ≤ 1024 * 1024) := by
  have h := sha1_loop_spec image ((l + 1) * bs - f * bs) pos
    ((l + 1) * bs - f * bs) 0 (1024 * 1024) (by decide) (by omega) (by omega)
  simpa [calculate_sha1] using h

/-! ### Claims -/

/-- C2: for every image and every pattern of mapped/unmapped blocks
reported by the mapping oracle, the block indices covered by the emitted
ranges are exactly the blocks (below the block count) for which
`_is_mapped` returns true: the concatenated coverage list equals the
duplicate-free list of mapped blocks, so every mapped block is covered
exactly once and no unmapped block is covered. -/
theorem C2_ranges_cover_exactly_mapped (m : Nat → Bool) (n : Nat) :
    (get_ranges m n).flatMap toBlocks = (List.range n).filter m ∧
    ((get_ranges m n).flatMap toBlocks).Nodup ∧
    (∀ j : Nat, j ∈ (get_ranges m n).flatMap toBlocks ↔
      (j < n ∧ m j = true)) := by
  have h := get_ranges_flatten m n
  refine ⟨h, ?_, ?_⟩
  · rw [h]
    exact (List.nodup_range n).filter m
  · intro j
    rw [h, List.mem_filter, List.mem_range]

/-- C4: the ranges produced by `_get_ranges` are strictly increasing,
pairwise non-overlapping and pairwise non-adjacent (`r1.2 + 2 ≤ r2.1`,
stated both for consecutive pairs and for all pairs), and every range
satisfies `first ≤ last < blockCount`. -/
theorem C4_ranges_increasing_nonadjacent_bounded (m : Nat → Bool) (n : Nat) :
    List.Chain' (fun r1 r2 => r1.2 + 2 ≤ r2.1) (get_ranges m n) ∧
    List.Pairwise (fun r1 r2 => r1.2 + 2 ≤ r2.1) (get_ranges m n) ∧
    (∀ r ∈ get_ranges m n, r.1 ≤ r.2 ∧ r.2 < n) := by
  obtain ⟨hc, hb⟩ := get_ranges_ok m n
  refine ⟨hc, ?_, fun r hr => ⟨(hb r hr).2.1, (hb r hr).2.2⟩⟩
  exact chain_sep_pairwise _ hc (fun r hr => (hb r hr).2.1)

/-- C3: the `bmap_mapped_cnt` accumulated by `generate` equals the sum of
`last - first + 1` over the coalescer's ranges; re-summing the spans of
the emitted range lines reproduces it; and the emitted footer (the last
line) carries exactly that count. -/
theorem C3_mapped_cnt_roundtrip (m : Nat → Bool) (image : List Nat)
    (image_size block_size : Nat) (inc : Bool) :
    (generate m image image_size block_size inc).mapped_cnt =
      ((get_ranges m (bmap_blocks_cnt image_size block_size)).map
        (fun r => r.2 - r.1 + 1)).sum ∧
    (((generate m image image_size block_size inc).lines.filter
        (fun ln => ln.isRange)).map
      (fun ln => ln.blockSpan.2 - ln.blockSpan.1 + 1)).sum =
      (generate m image image_size block_size inc).mapped_cnt ∧
    (generate m image image_size block_size inc).lines.getLast? =
      some (BmapLine.footer
        (generate m image image_size block_size inc).mapped_cnt
        (generate m image image_size block_size inc).mapped_size
        (generate m image image_size block_size inc).mapped_percent) := by
  obtain ⟨hshape, hmapeq⟩ :=
    generate_lines_shape m image image_size block_size inc
  have hcnt := generate_mapped_cnt m image image_size block_size inc
  refine ⟨hcnt, ?_, ?_⟩
  · have h2 : (((generate m image image_size block_size inc).lines.filter
        (fun ln => ln.isRange)).map BmapLine.blockSpan).map
          (fun r => r.2 - r.1 + 1) =
        ((generate m image image_size block_size inc).lines.filter
          (fun ln => ln.isRange)).map
            (fun ln => ln.blockSpan.2 - ln.blockSpan.1 + 1) := by
      rw [List.map_map]
      rfl
    rw [← h2, hmapeq, ← hcnt]
  · rw [hshape]
    rw [← List.cons_append, List.getLast?_concat]

/-- C9: `generate` hands the sink the header line first, then exactly one
range line per discovered range, in discovery order (the range lines of
the output, read in order, carry exactly the coalescer's `(first, last)`
sequence), and the footer line last. -/
theorem C9_header_then_ranges_then_footer (m : Nat → Bool)
    (image : List Nat) (image_size block_size : Nat) (inc : Bool) :
    (generate m image image_size block_size inc).lines =
      BmapLine.header image_size block_size
          (bmap_blocks_cnt image_size block_size) ::
        ((generate m image image_size block_size inc).lines.filter
            (fun ln => ln.isRange) ++
          [BmapLine.footer
            (generate m image image_size block_size inc).mapped_cnt
            (generate m image image_size block_size inc).mapped_size
            (generate m image image_size block_size inc).mapped_percent]) ∧
    ((generate m image image_size block_size inc).lines.filter
        (fun ln => ln.isRange)).map BmapLine.blockSpan =
      get_ranges m (bmap_blocks_cnt image_size block_size) :=
  generate_lines_shape m image image_size block_size inc

/-- C6: for positive image size and block size the computed block count is
the ceiling of `sizeBytes / blockSizeBytes`, hence
`blockCount * blockSizeBytes ≥ sizeBytes`. -/
theorem C6_blocks_cnt_is_ceil (s b : Nat) (h1 : 0 < s) (h2 : 0 < b) :
    ((bmap_blocks_cnt s b : Int) = Int.ceil ((s : Rat) / (b : Rat))) ∧
    s ≤ bmap_blocks_cnt s b * b := by
  have hmod := Nat.mod_lt (s + b - 1) h2
  have hdm := Nat.div_add_mod (s + b - 1) b
  have hbc : bmap_blocks_cnt s b = (s + b - 1) / b := rfl
  set c := bmap_blocks_cnt s b with hc
  set t := c * b with ht
  have htb : b * ((s + b - 1) / b) = t := by
    rw [ht, hbc, Nat.mul_comm]
  rw [htb] at hdm
  have hub : s ≤ t := by omega
  have hc1 : 1 ≤ c := by
    rcases Nat.eq_zero_or_pos c with h0 | h0
    · exfalso
      have ht0 : t = 0 := by rw [ht, h0, Nat.zero_mul]
      omega
    · exact h0
  have hlb : (c - 1) * b < s := by
    have he : (c - 1) * b = t - b := by
      rw [ht, Nat.sub_mul, Nat.one_mul]
    rw [he]
    omega
  refine ⟨?_, hub⟩
  have hbq : (0 : Rat) < (b : Rat) := by exact_mod_cast h2
  symm
  rw [Int.ceil_eq_iff]
  constructor
  · rw [lt_div_iff₀ hbq]
    have h5 : ((c - 1 : Nat) : Rat) * (b : Rat) < (s : Rat) := by
      exact_mod_cast hlb
    rw [Nat.cast_sub hc1] at h5
    push_cast at h5 ⊢
    linarith
  · rw [div_le_iff₀ hbq]
    exact_mod_cast hub

/-- C7: when the oracle reports every block mapped (for an image of at
least one block), the coalescer yields the single range
`[0, blockCount - 1]` and the generated footer percent is exactly `100`;
dually, when the oracle reports every block unmapped, no range line is
emitted. -/
theorem C7_all_mapped_and_all_unmapped (image : List Nat)
    (image_size block_size : Nat) (inc : Bool) (m mu : Nat → Bool)
    (h1 : 0 < image_size) (h2 : 0 < block_size)
    (hm : ∀ j, j < bmap_blocks_cnt image_size block_size → m j = true)
    (hu : ∀ j, j < bmap_blocks_cnt image_size block_size → mu j = false) :
    get_ranges m (bmap_blocks_cnt image_size block_size) =
      [(0, bmap_blocks_cnt image_size block_size - 1)] ∧
    (generate m image image_size block_size inc).mapped_percent = 100 ∧
    (generate mu image image_size block_size inc).lines.filter
      (fun ln => ln.isRange) = [] ∧
    get_ranges mu (bmap_blocks_cnt image_size block_size) = [] := by
  have hn : 1 ≤ bmap_blocks_cnt image_size block_size := by
    rw [bmap_blocks_cnt]
    exact (Nat.one_le_div_iff h2).mpr (by omega)
  have hall := get_ranges_all_true m _ hn hm
  have hnone := get_ranges_all_false mu _ hu
  refine ⟨hall, ?_, ?_, hnone⟩
  · have hcnt := generate_mapped_cnt m image image_size block_size inc
    rw [hall] at hcnt
    simp only [List.map_cons, List.map_nil, List.sum_cons, List.sum_nil] at hcnt
    have hcnt2 : (generate m image image_size block_size inc).mapped_cnt =
        bmap_blocks_cnt image_size block_size := by omega
    have hpct : (generate m image image_size block_size inc).mapped_percent =
        ((generate m image image_size block_size inc).mapped_cnt * 100 : Rat) /
          (bmap_blocks_cnt image_size block_size : Rat) := by
      simp [generate]
    rw [hpct, hcnt2]
    have hnz : ((bmap_blocks_cnt image_size block_size : Nat) : Rat) ≠ 0 := by
      exact_mod_cast Nat.pos_iff_ne_zero.mp (by omega)
    field_simp
  · obtain ⟨_, hmapeq⟩ :=
      generate_lines_shape mu image image_size block_size inc
    rw [hnone] at hmapeq
    exact List.map_eq_nil_iff.mp hmapeq

/-- C10: the `_calculate_sha1` loop issues read requests of at most
`2^20 = 1024*1024` bytes each, requests exactly
`(last - first + 1) * blockSize` bytes in total (the progress counter
advances by the requested size, not the returned size), and the digest is
fed exactly the bytes the reads actually returned — the image suffix at
the current stream position, truncated to the requested span (shorter at
end of file). -/
theorem C10_checksum_loop_requests (image : List Nat)
    (bs f l pos : Nat) (h : f ≤ l) :
    (calculate_sha1 image bs f l pos).2.2.sum = (l - f + 1) * bs ∧
    (∀ c ∈ (calculate_sha1 image bs f l pos).2.2, c ≤ 1024 * 1024) ∧
    (calculate_sha1 image bs f l pos).1 =
      (image.drop pos).take ((l - f + 1) * bs) := by
  obtain ⟨hh, _, hsum, hreq⟩ := calculate_sha1_spec image bs f l pos
  have harith : (l + 1) * bs - f * bs = (l - f + 1) * bs := by
    rw [← Nat.sub_mul]
    congr 1
    omega
  rw [harith] at hh hsum
  exact ⟨hsum, fun c hc => (hreq c hc).2, hh⟩

/-- C10 witness: concrete instantiation at a 3-block range, block size 2,
on a 4-byte image starting at stream position 1 (the nominal span extends
past end of file). -/
theorem C10_checksum_loop_requests_witness :
    (2 : Nat) ≤ 4 ∧
    ((calculate_sha1 [10, 11, 12, 13] 2 2 4 1).2.2.sum = (4 - 2 + 1) * 2 ∧
    (∀ c ∈ (calculate_sha1 [10, 11, 12, 13] 2 2 4 1).2.2,
      c ≤ 1024 * 1024) ∧
    (calculate_sha1 [10, 11, 12, 13] 2 2 4 1).1 =
      ([10, 11, 12, 13].drop 1).take ((4 - 2 + 1) * 2)) :=
  ⟨by decide, C10_checksum_loop_requests [10, 11, 12, 13] 2 2 4 1 (by decide)⟩

/-- C6 witness: concrete instantiation at `sizeBytes = 5`,
`blockSizeBytes = 2`. -/
theorem C6_blocks_cnt_is_ceil_witness :
    ((0 : Nat) < 5 ∧ (0 : Nat) < 2) ∧
    (((bmap_blocks_cnt 5 2 : Int) = Int.ceil ((5 : Rat) / (2 : Rat))) ∧
      5 ≤ bmap_blocks_cnt 5 2 * 2) :=
  ⟨by decide, C6_blocks_cnt_is_ceil 5 2 (by decide) (by decide)⟩

/-- C7 witness: concrete instantiation on a 2-block image, once with the
all-mapped oracle and once with the all-unmapped oracle. -/
theorem C7_all_mapped_and_all_unmapped_witness :
    ((0 : Nat) < 2 ∧ (0 : Nat) < 1 ∧
      (∀ j, j < bmap_blocks_cnt 2 1 → (fun _ => true) j = true) ∧
      (∀ j, j < bmap_blocks_cnt 2 1 → (fun _ => false) j = false)) ∧
    (get_ranges (fun _ => true) (bmap_blocks_cnt 2 1) =
        [(0, bmap_blocks_cnt 2 1 - 1)] ∧
      (generate (fun _ => true) [] 2 1 false).mapped_percent = 100 ∧
      (generate (fun _ => false) [] 2 1 false).lines.filter
        (fun ln => ln.isRange) = [] ∧
      get_ranges (fun _ => false) (bmap_blocks_cnt 2 1) = []) :=
  ⟨⟨by decide, by decide, fun _ _ => rfl, fun _ _ => rfl⟩,
    C7_all_mapped_and_all_unmapped [] 2 1 false _ _ (by decide) (by decide)
      (fun _ _ => rfl) (fun _ _ => rfl)⟩

/-- C1 counterexample: `generate` with checksums on the 2-block image with
bytes `[7, 9]`, block size 1, where only block 1 is mapped.  The source
computes `start = first * block_size` in `_calculate_sha1` but never seeks,
so the digest fed to the sink for the range `(1, 1)` hashes byte `[7]` (the
stream bytes starting at position 0), while the bytes of the range's span
`[first*blockSize, (last+1)*blockSize) = [1, 2)` are `[9]`. -/
theorem C1_digest_reads_wrong_bytes :
    (generate (fun b => b == 1) [7, 9] 2 1 true).lines.filter
        (fun ln => ln.isRange) =
      [BmapLine.rangeLine (some [7]) 1 1] ∧
    ([7, 9].drop (1 * 1)).take ((1 + 1) * 1 - 1 * 1) = [9] ∧
    ([7] : List Nat) ≠ [9] := by
  refine ⟨?_, by decide, by decide⟩
  have hsha : (calculate_sha1 [7, 9] 1 1 1 0).1 = [7] := by
    have h := (calculate_sha1_spec [7, 9] 1 1 1 0).1
    simpa using h
  have hr : get_ranges (fun b => b == 1) (bmap_blocks_cnt 2 1) =
      [(1, 1)] := by decide
  simp only [generate, hr, rangeLoop, if_true, hsha]
  simp [BmapLine.isRange]

/-- C5: what the code actually does on a zero-sized image.  `__init__`
reaches the zero-size branch only when `open` succeeded, so the local
`err` that the branch's `raise Error(..., err.errno)` mentions was never
bound: the constructor raises `UnboundLocalError`, not the intended
`Error` with the human-readable zero-size message (and, correctly per the
claim, nothing has been emitted to the output sink — the constructor never
touches it, as the empty probe trace and the model's lack of any sink
interaction record). -/
theorem C5_zero_size_raises_unbound_local (env : InitEnv)
    (hopen : env.open_result = none) (hsize : env.st_size = 0) :
    BmapCreator_init env =
      (Except.error (PyExc.unboundLocal "err"), []) ∧
    ∀ msg errno, (BmapCreator_init env).1 ≠
      Except.error (PyExc.err msg errno) := by
  have h : BmapCreator_init env =
      (Except.error (PyExc.unboundLocal "err"), []) := by
    simp [BmapCreator_init, hopen, hsize]
  refine ⟨h, ?_⟩
  intro msg errno
  rw [h]
  intro hcontr
  exact PyExc.noConfusion (Except.error.inj hcontr)

/-- C5 witness: a concrete environment whose `open` succeeds on a
zero-sized image. -/
theorem C5_zero_size_raises_unbound_local_witness :
    ((InitEnv.mk "img" none 0 (Except.ok 4096) (fun _ => Except.ok 1)
        ).open_result = none ∧
      (InitEnv.mk "img" none 0 (Except.ok 4096) (fun _ => Except.ok 1)
        ).st_size = 0) ∧
    (BmapCreator_init
        (InitEnv.mk "img" none 0 (Except.ok 4096) (fun _ => Except.ok 1)) =
      (Except.error (PyExc.unboundLocal "err"), []) ∧
    ∀ msg errno,
      (BmapCreator_init
        (InitEnv.mk "img" none 0 (Except.ok 4096)
          (fun _ => Except.ok 1))).1 ≠
        Except.error (PyExc.err msg errno)) :=
  ⟨⟨rfl, rfl⟩, C5_zero_size_raises_unbound_local _ rfl rfl⟩

/-- C8: once `open`, the size check and the block-size query succeed,
`__init__` probes the mapping oracle exactly once, on block 0 (probe trace
`[0]`); a probe failure whose errno is `EPERM` or `EACCES` is re-raised as
the distinguished `Error` carrying the elevation-guidance message, any
other probe failure is re-raised as the generic wrapped FIBMAP error
unchanged, and a successful probe lets construction succeed. -/
theorem C8_probe_once_perm_distinguished (env : InitEnv) (bs : Nat)
    (hopen : env.open_result = none) (hsize : env.st_size ≠ 0)
    (hbs : env.figetbsz = Except.ok bs) :
    (BmapCreator_init env).2 = [0] ∧
    (∀ msg errno, env.fibmap 0 = Except.error (msg, errno) →
      errno = EPERM ∨ errno = EACCES →
      (BmapCreator_init env).1 =
        Except.error (PyExc.err permGuidanceMsg (some errno))) ∧
    (∀ msg errno, env.fibmap 0 = Except.error (msg, errno) →
      errno ≠ EPERM → errno ≠ EACCES →
      (BmapCreator_init env).1 =
        Except.error (PyExc.err ("the FIBMAP ioctl failed for " ++
          env.image_path ++ ": " ++ msg) (some errno))) ∧
    (∀ b0, env.fibmap 0 = Except.ok b0 →
      (BmapCreator_init env).1 = Except.ok
        { bmap_image_size := env.st_size,
          bmap_block_size := bs,
          bmap_blocks_cnt := bmap_blocks_cnt env.st_size bs }) := by
  have hz : (env.st_size == 0) = false := by
    simp [hsize]
  refine ⟨?_, ?_, ?_, ?_⟩
  · cases hfb : env.fibmap 0 with
    | error p =>
      obtain ⟨msg0, errno0⟩ := p
      simp only [BmapCreator_init, hopen, hz, Bool.false_eq_true, if_false,
        hbs, is_mapped, hfb]
      split <;> rfl
    | ok b0 =>
      simp only [BmapCreator_init, hopen, hz, Bool.false_eq_true, if_false,
        hbs, is_mapped, hfb]
  · intro msg errno hfb hperm
    simp only [BmapCreator_init, hopen, hz, Bool.false_eq_true, if_false,
      hbs, is_mapped, hfb]
    have hcond : (some errno == some EPERM || some errno == some EACCES)
        = true := by
      rcases hperm with h | h <;> simp [h]
    rw [if_pos hcond]
  · intro msg errno hfb h1 h2
    simp only [BmapCreator_init, hopen, hz, Bool.false_eq_true, if_false,
      hbs, is_mapped, hfb]
    have hcond : (some errno == some EPERM || some errno == some EACCES)
        = false := by
      simp [h1, h2]
    rw [if_neg (by simp [hcond, h1, h2])]
  · intro b0 hfb
    simp only [BmapCreator_init, hopen, hz, Bool.false_eq_true, if_false,
      hbs, is_mapped, hfb]

/-- C8 witness: a concrete environment whose probe fails with `EPERM`;
the raised error carries the guidance message, which differs from the
generic wrapped FIBMAP message for the same failure. -/
theorem C8_probe_once_perm_distinguished_witness :
    ((InitEnv.mk "img" none 5 (Except.ok 4096)
        (fun _ => Except.error ("denied", 1))).open_result = none ∧
      (InitEnv.mk "img" none 5 (Except.ok 4096)
        (fun _ => Except.error ("denied", 1))).st_size ≠ 0 ∧
      (InitEnv.mk "img" none 5 (Except.ok 4096)
        (fun _ => Except.error ("denied", 1))).figetbsz = Except.ok 4096) ∧
    ((BmapCreator_init (InitEnv.mk "img" none 5 (Except.ok 4096)
        (fun _ => Except.error ("denied", 1)))).2 = [0] ∧
      (BmapCreator_init (InitEnv.mk "img" none 5 (Except.ok 4096)
        (fun _ => Except.error ("denied", 1)))).1 =
        Except.error (PyExc.err permGuidanceMsg (some 1)) ∧
      permGuidanceMsg ≠ "the FIBMAP ioctl failed for img: denied") := by
  have h := C8_probe_once_perm_distinguished
    (InitEnv.mk "img" none 5 (Except.ok 4096)
      (fun _ => Except.error ("denied", 1))) 4096 rfl (by decide) rfl
  exact ⟨⟨rfl, by decide, rfl⟩,
    h.1, h.2.1 "denied" 1 rfl (Or.inl rfl), by decide⟩

end BmapCreatorModel